import Mathlib

/-!
Verification of the recoal request-coalescing library.

The development shallowly embeds `RecoalInstance` (src/src/instance/index.ts):
the result cache and in-flight table become association lists keyed by the
derived cache key, machine time is an explicit `Int` parameter (the value of
`Date.now()` at each call), and the asynchronous parts of `coalesce` are split
at their only suspension point into a synchronous entry phase (`coalesce`) and
a settlement phase (`settle`, the promise body that runs when the wrapped
operation resolves or rejects).  A step relation over these events defines the
reachable states of one instance.  Ghost fields (`activeCalls`, `nextCallId`)
record which dispatched executions are still pending; they model promise
identity and do not influence the computed behaviour.
-/

namespace Recoal

/-! ### JavaScript `Map` as an association list

`Map.get`, `Map.set`, `Map.delete` and `Map.has` keyed by strings.  `mapSet`
overwrites an existing binding in place; `mapDelete` removes the binding for
the key. -/

def mapGet {α : Type} : List (String × α) → String → Option α
  | [], _ => none
  | (k', v) :: rest, k => if k' = k then some v else mapGet rest k

def mapSet {α : Type} : List (String × α) → String → α → List (String × α)
  | [], k, v => [(k, v)]
  | (k', v') :: rest, k, v =>
    if k' = k then (k, v) :: rest else (k', v') :: mapSet rest k v

def mapDelete {α : Type} (m : List (String × α)) (k : String) : List (String × α) :=
  m.filter (fun p => p.1 != k)

def mapHas {α : Type} (m : List (String × α)) (k : String) : Bool :=
  (mapGet m k).isSome

/-! ### Argument values

Arguments passed to a coalesced function are JSON-like values (the library
serializes them with `json-stable-stringify` to build the cache key).  Numbers
are modelled as integers. -/

inductive JsonValue : Type where
  | null : JsonValue
  | bool (b : Bool) : JsonValue
  | num (n : Int) : JsonValue
  | str (s : String) : JsonValue
  | arr (elems : List JsonValue) : JsonValue
  | obj (fields : List (String × JsonValue)) : JsonValue

/-- Order on object fields used by the stable serializer: compare keys. -/
def keyLe (p q : String × JsonValue) : Prop := p.1 ≤ q.1

instance : DecidableRel keyLe := fun p q => inferInstanceAs (Decidable (p.1 ≤ q.1))

instance : IsTotal (String × JsonValue) keyLe := ⟨fun p q => le_total p.1 q.1⟩

instance : IsTrans (String × JsonValue) keyLe := ⟨fun _ _ _ h h' => le_trans h h'⟩

/-- Sort the fields of an object by key (ascending). -/
def sortPairs (fs : List (String × JsonValue)) : List (String × JsonValue) :=
  List.insertionSort keyLe fs

mutual

/-- Modelled from the spec: the canonical form computed by the external
`json-stable-stringify` dependency (not part of src/): at every level the
fields of an object are emitted in sorted key order, so insertion order is
erased.  `canon` performs that reordering. -/
def canon : JsonValue → JsonValue
  | .null => .null
  | .bool b => .bool b
  | .num n => .num n
  | .str s => .str s
  | .arr xs => .arr (canonList xs)
  | .obj fs => .obj (sortPairs (canonFields fs))

def canonList : List JsonValue → List JsonValue
  | [] => []
  | x :: xs => canon x :: canonList xs

def canonFields : List (String × JsonValue) → List (String × JsonValue)
  | [] => []
  | (k, v) :: fs => (k, canon v) :: canonFields fs

end

/-- JSON string escaping for one character (quote and backslash are escaped). -/
def escapeChar (c : Char) : List Char :=
  if c = '"' ∨ c = '\\' then ['\\', c] else [c]

/-- JSON string escaping. -/
def escapeStr (s : List Char) : List Char := (s.map escapeChar).flatten

/-- Decimal digit character. -/
def jdigit : Nat → Char
  | 0 => '0' | 1 => '1' | 2 => '2' | 3 => '3' | 4 => '4'
  | 5 => '5' | 6 => '6' | 7 => '7' | 8 => '8' | _ => '9'

/-- Decimal representation of a natural number. -/
def natChars (n : Nat) : List Char :=
  if n = 0 then ['0'] else ((Nat.digits 10 n).map jdigit).reverse

/-- Decimal representation of an integer. -/
def intChars : Int → List Char
  | .ofNat n => natChars n
  | .negSucc m => '-' :: natChars (m + 1)

mutual

/-- Modelled from the spec: plain JSON serialization (field order preserved);
the external canonical serializer is `serializePlain` composed with `canon`. -/
def serializePlain : JsonValue → List Char
  | .null => ['n', 'u', 'l', 'l']
  | .bool b => if b then ['t', 'r', 'u', 'e'] else ['f', 'a', 'l', 's', 'e']
  | .num n => intChars n
  | .str s => '"' :: (escapeStr s.data ++ ['"'])
  | .arr xs => '[' :: (serElems xs ++ [']'])
  | .obj fs => '{' :: (serMembers fs ++ ['}'])

def serElems : List JsonValue → List Char
  | [] => []
  | [x] => serializePlain x
  | x :: y :: xs => serializePlain x ++ ',' :: serElems (y :: xs)

def serMember : String × JsonValue → List Char
  | (k, v) => '"' :: (escapeStr k.data ++ '"' :: ':' :: serializePlain v)

def serMembers : List (String × JsonValue) → List Char
  | [] => []
  | [kv] => serMember kv
  | kv :: kv' :: fs => serMember kv ++ ',' :: serMembers (kv' :: fs)

end

/-- Modelled from the spec: `stringify` of the external `json-stable-stringify`
dependency — a deterministic canonical serializer that is stable under object
key insertion order and distinguishes argument lists by position and value. -/
def stringify (v : JsonValue) : String := String.mk (serializePlain (canon v))

/-! ### Coalescer state and configuration -/

/-- A result-cache entry: `{ result, timestamp }`. -/
structure CacheEntry : Type where
  result : JsonValue
  timestamp : Int

/-- Constructor-time configuration of a `RecoalInstance`.  `maxConcurrency`
is `none` for the default `Infinity` limit. -/
structure RecoalConfig : Type where
  pruneIntervalMs : Int
  ttlMs : Int
  maxConcurrency : Option Int
  customKeyGen : Option (String → List JsonValue → String)

/-- The mutable state of one `RecoalInstance`.  `activeCalls` and `nextCallId`
are ghost fields: `nextCallId` allocates a fresh identity for each promise
created by `coalesce`, and `activeCalls` lists the dispatched executions whose
promise has not settled yet (the in-flight table stores the promise identity
for its key). -/
structure RecoalState : Type where
  resultCache : List (String × CacheEntry)
  inFlightRequests : List (String × Nat)
  currentConcurrency : Nat
  intervalStarted : Bool
  nextCallId : Nat
  activeCalls : List (Nat × String)

/-- The state of a freshly constructed instance. -/
def initState : RecoalState :=
  { resultCache := []
    inFlightRequests := []
    currentConcurrency := 0
    intervalStarted := false
    nextCallId := 0
    activeCalls := [] }

/-- `_createKey`: the custom generator if set, else
`functionName + "|" + stringify(args)`. -/
def createKey (cfg : RecoalConfig) (functionName : String) (args : List JsonValue) : String :=
  match cfg.customKeyGen with
  | some g => g functionName args
  | none => functionName ++ "|" ++ stringify (.arr args)

/-- `fn.name || 'anonymous'`: the empty string is the only falsy string. -/
def resolveName (n : String) : String := if n = "" then "anonymous" else n

/-- Key derivation as performed at the top of `coalesce`, `isCoalesced` and
`invalidate`: resolve the function name, then `_createKey`. -/
def keyOf (cfg : RecoalConfig) (fname : String) (args : List JsonValue) : String :=
  createKey cfg (resolveName fname) args

/-- `this._currentConcurrency >= this._maxConcurrency` (false when the limit
is `Infinity`). -/
def concurrencyExceeded (cfg : RecoalConfig) (conc : Nat) : Bool :=
  match cfg.maxConcurrency with
  | none => false
  | some m => decide ((conc : Int) ≥ m)

/-- Outcome of the synchronous phase of one `coalesce` call. -/
inductive CoalesceResult : Type where
  | reusedInFlight (callId : Nat) : CoalesceResult
  | cachedResult (v : JsonValue) : CoalesceResult
  | maxConcurrencyError : CoalesceResult
  | newDispatch (callId : Nat) : CoalesceResult

/-- Steps 3–4 of `coalesce`: enforce the concurrency limit, otherwise
increment the counter, invoke the operation and register the new promise in
the in-flight table. -/
def dispatchNew (cfg : RecoalConfig) (s : RecoalState) (key : String) :
    CoalesceResult × RecoalState :=
  if concurrencyExceeded cfg s.currentConcurrency then
    (.maxConcurrencyError, s)
  else
    (.newDispatch s.nextCallId,
      { s with
          currentConcurrency := s.currentConcurrency + 1
          inFlightRequests := mapSet s.inFlightRequests key s.nextCallId
          activeCalls := (s.nextCallId, key) :: s.activeCalls
          nextCallId := s.nextCallId + 1 })

/-- The synchronous phase of `coalesce`: derive the key, lazily start the
pruning interval, then: 1. reuse an in-flight promise; 2. return a cached
result within TTL; 3. reject at the concurrency limit; 4. dispatch. -/
def coalesce (cfg : RecoalConfig) (s : RecoalState) (fname : String)
    (args : List JsonValue) (now : Int) : CoalesceResult × RecoalState :=
  let key := keyOf cfg fname args
  let s1 : RecoalState := { s with intervalStarted := true }
  match mapGet s1.inFlightRequests key with
  | some cid => (.reusedInFlight cid, s1)
  | none =>
    match mapGet s1.resultCache key with
    | some entry =>
      if now - entry.timestamp ≤ cfg.ttlMs then
        (.cachedResult entry.result, s1)
      else
        dispatchNew cfg s1 key
    | none => dispatchNew cfg s1 key

/-- How a dispatched operation settles. -/
inductive SettleOutcome : Type where
  | success (v : JsonValue) : SettleOutcome
  | failure (e : JsonValue) : SettleOutcome

/-- The promise body of call `cid` after the wrapped operation settles at time
`now`: on success the result is cached (the per-entry expiry timer it schedules
is modelled by `expiryCheck` events); on failure the error is logged and
rethrown; the `finally` block then unconditionally deletes the in-flight entry
for the key and decrements the concurrency counter. -/
def settle (cfg : RecoalConfig) (s : RecoalState) (cid : Nat) (key : String)
    (out : SettleOutcome) (now : Int) : RecoalState :=
  let s1 : RecoalState :=
    match out with
    | .success v =>
      { s with resultCache := mapSet s.resultCache key { result := v, timestamp := now } }
    | .failure _ => s
  { s1 with
      inFlightRequests := mapDelete s1.inFlightRequests key
      currentConcurrency := s1.currentConcurrency - 1
      activeCalls := s1.activeCalls.filter (fun c => c.1 != cid) }

/-- The deferred per-entry check scheduled by a successful settlement: delete
the cache entry if it is still at least TTL old when the timer fires. -/
def expiryCheck (cfg : RecoalConfig) (s : RecoalState) (key : String) (now : Int) :
    RecoalState :=
  match mapGet s.resultCache key with
  | some entry =>
    if now - entry.timestamp ≥ cfg.ttlMs then
      { s with resultCache := mapDelete s.resultCache key }
    else s
  | none => s

/-- `isCoalesced`: true if the key has an in-flight entry or a cache entry
within TTL.  The method performs no state writes. -/
def isCoalesced (cfg : RecoalConfig) (s : RecoalState) (fname : String)
    (args : List JsonValue) (now : Int) : Bool :=
  let key := keyOf cfg fname args
  if mapHas s.inFlightRequests key then true
  else
    match mapGet s.resultCache key with
    | some entry => decide (now - entry.timestamp ≤ cfg.ttlMs)
    | none => false

/-- `invalidate`: delete the result-cache entry and the in-flight entry for
the derived key. -/
def invalidate (cfg : RecoalConfig) (s : RecoalState) (fname : String)
    (args : List JsonValue) : RecoalState :=
  let key := keyOf cfg fname args
  { s with
      resultCache := mapDelete s.resultCache key
      inFlightRequests := mapDelete s.inFlightRequests key }

/-- `clear`: empty both mappings. -/
def clear (s : RecoalState) : RecoalState :=
  { s with resultCache := [], inFlightRequests := [] }

/-- `prune`: sweep the result cache, deleting entries older than TTL. -/
def prune (cfg : RecoalConfig) (s : RecoalState) (now : Int) : RecoalState :=
  { s with resultCache := s.resultCache.filter (fun p => !decide (now - p.2.timestamp > cfg.ttlMs)) }

/-! ### Events and reachability -/

/-- One atomic step against a coalescer instance: a public method call, the
settlement of a dispatched operation, or the firing of a deferred expiry
timer.  Each event that reads the clock carries its `Date.now()` value. -/
inductive Event : Type where
  | coalesceEv (fname : String) (args : List JsonValue) (now : Int) : Event
  | settleEv (cid : Nat) (key : String) (out : SettleOutcome) (now : Int) : Event
  | isCoalescedEv (fname : String) (args : List JsonValue) (now : Int) : Event
  | invalidateEv (fname : String) (args : List JsonValue) : Event
  | clearEv : Event
  | pruneEv (now : Int) : Event
  | expireEv (key : String) (now : Int) : Event

/-- State transition of each event. -/
def stepState (cfg : RecoalConfig) (s : RecoalState) : Event → RecoalState
  | .coalesceEv f a now => (coalesce cfg s f a now).2
  | .settleEv cid key out now => settle cfg s cid key out now
  | .isCoalescedEv _ _ _ => s
  | .invalidateEv f a => invalidate cfg s f a
  | .clearEv => clear s
  | .pruneEv now => prune cfg s now
  | .expireEv k now => expiryCheck cfg s k now

/-- An event is enabled: a settlement can only happen for a call that was
dispatched and has not settled yet. -/
def Enabled (s : RecoalState) : Event → Prop
  | .settleEv cid key _ _ => (cid, key) ∈ s.activeCalls
  | _ => True

/-- States reachable by any interleaving of method calls, settlements and
timer firings. -/
inductive Reachable (cfg : RecoalConfig) : RecoalState → Prop where
  | init : Reachable cfg initState
  | step {s : RecoalState} {e : Event} :
      Reachable cfg s → Enabled s e → Reachable cfg (stepState cfg s e)

/-- Events other than `invalidate` and `clear` (the two calls that detach an
in-flight entry from its still-running execution). -/
def NonDetaching : Event → Prop
  | .invalidateEv _ _ => False
  | .clearEv => False
  | _ => True

/-- States reachable without ever calling `invalidate` or `clear`. -/
inductive ReachableND (cfg : RecoalConfig) : RecoalState → Prop where
  | init : ReachableND cfg initState
  | step {s : RecoalState} {e : Event} :
      ReachableND cfg s → Enabled s e → NonDetaching e → ReachableND cfg (stepState cfg s e)

/-! ### Invariant predicates -/

/-- Bookkeeping invariant of every reachable state: active call ids are below
the allocation counter, pairwise distinct, and counted by
`currentConcurrency`. -/
def StateInv (s : RecoalState) : Prop :=
  (∀ p ∈ s.activeCalls, p.1 < s.nextCallId) ∧
  (s.activeCalls.map Prod.fst).Nodup ∧
  s.currentConcurrency = s.activeCalls.length

/-- In runs without `invalidate`/`clear`, the in-flight table is exactly the
graph of the active executions. -/
def MapMatchesActive (s : RecoalState) : Prop :=
  ∀ (k : String) (cid : Nat),
    mapGet s.inFlightRequests k = some cid ↔ (cid, k) ∈ s.activeCalls

/-! ### Structural equality of arguments up to object-key insertion order

`PermEq a b` holds when `a` and `b` are equal except that, at any depth, the
fields of corresponding objects may appear in different insertion orders. -/

inductive PermEq : JsonValue → JsonValue → Prop where
  | null : PermEq .null .null
  | bool (b : Bool) : PermEq (.bool b) (.bool b)
  | num (n : Int) : PermEq (.num n) (.num n)
  | str (s : String) : PermEq (.str s) (.str s)
  | arr {xs ys : List JsonValue} (hlen : xs.length = ys.length)
      (h : ∀ (i : Nat) (h1 : i < xs.length) (h2 : i < ys.length),
        PermEq (xs.get ⟨i, h1⟩) (ys.get ⟨i, h2⟩)) :
      PermEq (.arr xs) (.arr ys)
  | obj {fs gs2 gs : List (String × JsonValue)} (hlen : fs.length = gs2.length)
      (hk : ∀ (i : Nat) (h1 : i < fs.length) (h2 : i < gs2.length),
        (fs.get ⟨i, h1⟩).1 = (gs2.get ⟨i, h2⟩).1)
      (hv : ∀ (i : Nat) (h1 : i < fs.length) (h2 : i < gs2.length),
        PermEq (fs.get ⟨i, h1⟩).2 (gs2.get ⟨i, h2⟩).2)
      (hperm : gs2.Perm gs) :
      PermEq (.obj fs) (.obj gs)

/-- Duplicate-freedom of a key list, as a boolean. -/
def strNodup : List String → Bool
  | [] => true
  | k :: ks => !(ks.contains k) && strNodup ks

mutual

/-- A value is well formed when no object in it has duplicate keys (JavaScript
objects cannot). -/
def wellFormed : JsonValue → Bool
  | .null => true
  | .bool _ => true
  | .num _ => true
  | .str _ => true
  | .arr xs => wfList xs
  | .obj fs => strNodup (fs.map Prod.fst) && wfFields fs

def wfList : List JsonValue → Bool
  | [] => true
  | x :: xs => wellFormed x && wfList xs

def wfFields : List (String × JsonValue) → Bool
  | [] => true
  | (_, v) :: fs => wellFormed v && wfFields fs

end

/-! ### A JSON reader, used to prove the serializer injective -/

/-- Numeric value of a digit character. -/
def digitVal (c : Char) : Nat := c.toNat - 48

/-- Split a maximal run of digit characters off the front. -/
def takeDigits : List Char → List Char × List Char
  | [] => ([], [])
  | c :: cs =>
    if c.isDigit then
      let p := takeDigits cs
      (c :: p.1, p.2)
    else ([], c :: cs)

/-- Value of a big-endian digit run. -/
def digitsToNat (ds : List Char) : Nat :=
  ds.foldl (fun acc c => acc * 10 + digitVal c) 0

/-- Match and remove an expected literal. -/
def dropLit : List Char → List Char → Option (List Char)
  | [], input => some input
  | p :: ps, c :: input => if c = p then dropLit ps input else none
  | _ :: _, [] => none

mutual

/-- Read an escaped string body up to its closing quote. -/
def readStrChars : List Char → Option (List Char × List Char)
  | [] => none
  | c :: r =>
    if c = '"' then some ([], r)
    else if c = '\\' then readStrEsc r
    else (readStrChars r).map (fun p => (c :: p.1, p.2))

/-- Read the character following a backslash, then the rest of the body. -/
def readStrEsc : List Char → Option (List Char × List Char)
  | [] => none
  | c2 :: r2 => (readStrChars r2).map (fun p => (c2 :: p.1, p.2))

end

mutual

/-- Read one JSON value (fuel-indexed). -/
def readVal : Nat → List Char → Option (JsonValue × List Char)
  | 0, _ => none
  | _ + 1, [] => none
  | fuel + 1, c :: r =>
    if c = '"' then
      match readStrChars r with
      | some p => some (.str (String.mk p.1), p.2)
      | none => none
    else if c = '[' then
      match readElems fuel r with
      | some p => some (.arr p.1, p.2)
      | none => none
    else if c = '{' then
      match readMembers fuel r with
      | some p => some (.obj p.1, p.2)
      | none => none
    else if c = '-' then
      let p := takeDigits r
      if p.1 = [] then none
      else some (.num (-(digitsToNat p.1 : Int)), p.2)
    else if c.isDigit then
      let p := takeDigits (c :: r)
      some (.num (digitsToNat p.1 : Int), p.2)
    else if c = 'n' then
      match dropLit ['u', 'l', 'l'] r with
      | some r2 => some (.null, r2)
      | none => none
    else if c = 't' then
      match dropLit ['r', 'u', 'e'] r with
      | some r2 => some (.bool true, r2)
      | none => none
    else if c = 'f' then
      match dropLit ['a', 'l', 's', 'e'] r with
      | some r2 => some (.bool false, r2)
      | none => none
    else none

/-- Read array elements and the closing bracket. -/
def readElems : Nat → List Char → Option (List JsonValue × List Char)
  | 0, _ => none
  | _ + 1, [] => none
  | fuel + 1, c :: r =>
    if c = ']' then some ([], r)
    else
      match readVal fuel (c :: r) with
      | none => none
      | some (v, r1) =>
        match r1 with
        | [] => none
        | c2 :: r2 =>
          if c2 = ',' then
            match readElems fuel r2 with
            | some p => some (v :: p.1, p.2)
            | none => none
          else if c2 = ']' then some ([v], r2)
          else none

/-- Read object members and the closing brace. -/
def readMembers : Nat → List Char → Option (List (String × JsonValue) × List Char)
  | 0, _ => none
  | _ + 1, [] => none
  | fuel + 1, c :: r =>
    if c = '}' then some ([], r)
    else if c = '"' then
      match readStrChars r with
      | none => none
      | some (k, r2) =>
        match r2 with
        | [] => none
        | c3 :: r3 =>
          if c3 = ':' then
            match readVal fuel r3 with
            | none => none
            | some (v, r4) =>
              match r4 with
              | [] => none
              | c5 :: r5 =>
                if c5 = ',' then
                  match readMembers fuel r5 with
                  | some p => some ((String.mk k, v) :: p.1, p.2)
                  | none => none
                else if c5 = '}' then some ([(String.mk k, v)], r5)
                else none
          else none
    else none

end

mutual

/-- Enough reader fuel for a value. -/
def jfuel : JsonValue → Nat
  | .null => 1
  | .bool _ => 1
  | .num _ => 1
  | .str _ => 1
  | .arr xs => 1 + jfuelElems xs
  | .obj fs => 1 + jfuelMembers fs

def jfuelElems : List JsonValue → Nat
  | [] => 1
  | x :: xs => 1 + jfuel x + jfuelElems xs

def jfuelMembers : List (String × JsonValue) → Nat
  | [] => 1
  | (_, v) :: fs => 1 + jfuel v + jfuelMembers fs

end

/-- True when the input does not begin with a digit (so a serialized number
followed by it reads back unambiguously). -/
def noLeadDigit : List Char → Bool
  | [] => true
  | c :: _ => !c.isDigit

/-! ### Concrete instances used by counterexamples and witnesses -/

/-- A default-configured instance: TTL 1000 ms, unbounded concurrency, default
key generator. -/
def cfgDefault : RecoalConfig :=
  { pruneIntervalMs := 60000, ttlMs := 1000, maxConcurrency := none, customKeyGen := none }

/-- A default instance with `maxConcurrency := 1`. -/
def cfgLimited : RecoalConfig :=
  { pruneIntervalMs := 60000, ttlMs := 1000, maxConcurrency := some 1, customKeyGen := none }

/-- The key derived for a function named `f` applied to no arguments. -/
def keyF : String := keyOf cfgDefault "f" []

/-- After one `coalesce` call: call 0 dispatched for `keyF`. -/
def cexS1 : RecoalState := stepState cfgDefault initState (.coalesceEv "f" [] 0)

/-- Then `invalidate` detaches call 0 (it is still running). -/
def cexS2 : RecoalState := stepState cfgDefault cexS1 (.invalidateEv "f" [])

/-- Then a second `coalesce` dispatches call 1 for the same key while call 0
is still active. -/
def cexS3 : RecoalState := stepState cfgDefault cexS2 (.coalesceEv "f" [] 0)

/-- Then the detached call 0 settles; its late cleanup deletes call 1's
in-flight entry. -/
def cexS4 : RecoalState := stepState cfgDefault cexS3 (.settleEv 0 keyF (.failure .null) 5)

/-- A cached value for `keyF` stored at time 0. -/
def entryW : CacheEntry := { result := .num 7, timestamp := 0 }

/-- An instance state holding only that cached value. -/
def sCached : RecoalState := { initState with resultCache := [(keyF, entryW)] }

/-- An instance state whose concurrency counter is saturated for
`cfgLimited`. -/
def sBusy : RecoalState := { initState with currentConcurrency := 1 }

/-- An argument list holding one object with fields inserted as a then b. -/
def argA : List JsonValue := [.obj [("a", .num 1), ("b", .num 2)]]

/-- The same object with its fields inserted in the opposite order. -/
def argB : List JsonValue := [.obj [("b", .num 2), ("a", .num 1)]]

/-- An instance state in which an anonymous function's call 0 is in flight. -/
def sAnon : RecoalState :=
  { initState with
      inFlightRequests := [(createKey cfgDefault "anonymous" [], 0)]
      currentConcurrency := 1
      activeCalls := [(0, createKey cfgDefault "anonymous" [])]
      nextCallId := 1 }

/-! ### Association-list lemmas -/

theorem mapGet_set_self {α : Type} (m : List (String × α)) (k : String) (v : α) :
    mapGet (mapSet m k v) k = some v := by
  induction m with
  | nil => simp [mapSet, mapGet]
  | cons p rest ih =>
    obtain ⟨a, b⟩ := p
    by_cases h : a = k <;> simp [mapSet, mapGet, h, ih]

theorem mapGet_set_ne {α : Type} (m : List (String × α)) (k k' : String) (v : α)
    (h : k' ≠ k) : mapGet (mapSet m k v) k' = mapGet m k' := by
  induction m with
  | nil => simp [mapSet, mapGet, Ne.symm h]
  | cons p rest ih =>
    obtain ⟨a, b⟩ := p
    by_cases ha : a = k
    · subst ha
      simp [mapSet, mapGet, Ne.symm h]
    · by_cases ha' : a = k' <;> simp [mapSet, mapGet, ha, ha', ih, h]

theorem mapGet_delete_self {α : Type} (m : List (String × α)) (k : String) :
    mapGet (mapDelete m k) k = none := by
  induction m with
  | nil => rfl
  | cons p rest ih =>
    obtain ⟨a, b⟩ := p
    by_cases h : a = k <;> simp [mapDelete, List.filter_cons, h, mapGet, ih] <;>
      simpa [mapDelete] using ih

theorem mapGet_delete_ne {α : Type} (m : List (String × α)) (k k' : String)
    (h : k' ≠ k) : mapGet (mapDelete m k) k' = mapGet m k' := by
  induction m with
  | nil => rfl
  | cons p rest ih =>
    obtain ⟨a, b⟩ := p
    by_cases ha : a = k
    · subst ha
      simpa [mapDelete, List.filter_cons, mapGet, Ne.symm h] using ih
    · by_cases ha' : a = k' <;>
        simpa [mapDelete, List.filter_cons, ha, ha', mapGet, h] using ih

theorem mapGet_filter {α : Type} (m : List (String × α)) (k : String) (v : α)
    (p : String × α → Bool) (hget : mapGet m k = some v) (hp : p (k, v) = true) :
    mapGet (m.filter p) k = some v := by
  induction m with
  | nil => simp [mapGet] at hget
  | cons q rest ih =>
    obtain ⟨a, b⟩ := q
    by_cases h : a = k
    · subst h
      simp [mapGet] at hget
      subst hget
      simp [List.filter_cons, hp, mapGet]
    · simp [mapGet, h] at hget
      cases hq : p (a, b) <;> simp [List.filter_cons, hq, mapGet, h, ih hget]

/-! ### Claim C1: a fresh cache hit is returned without dispatch or mutation -/

/-- C1: if the derived key has a result-cache entry with `now - timestamp ≤
ttl` and no in-flight entry, `coalesce` returns that cached result, dispatches
nothing (the active executions are unchanged), and leaves the result cache,
the in-flight table and the concurrency counter unmodified. -/
theorem coalesce_cacheHit (cfg : RecoalConfig) (s : RecoalState) (fname : String)
    (args : List JsonValue) (now : Int) (entry : CacheEntry)
    (hnif : mapGet s.inFlightRequests (keyOf cfg fname args) = none)
    (hc : mapGet s.resultCache (keyOf cfg fname args) = some entry)
    (hfresh : now - entry.timestamp ≤ cfg.ttlMs) :
    (coalesce cfg s fname args now).1 = .cachedResult entry.result ∧
    (coalesce cfg s fname args now).2.resultCache = s.resultCache ∧
    (coalesce cfg s fname args now).2.inFlightRequests = s.inFlightRequests ∧
    (coalesce cfg s fname args now).2.currentConcurrency = s.currentConcurrency ∧
    (coalesce cfg s fname args now).2.activeCalls = s.activeCalls := by
  simp [coalesce, hnif, hc, hfresh]

/-- Witness for C1 at a concrete state. -/
theorem coalesce_cacheHit_witness :
    mapGet sCached.inFlightRequests keyF = none ∧
    mapGet sCached.resultCache keyF = some entryW ∧
    (500 : Int) - entryW.timestamp ≤ cfgDefault.ttlMs ∧
    (coalesce cfgDefault sCached "f" [] 500).1 = .cachedResult entryW.result ∧
    (coalesce cfgDefault sCached "f" [] 500).2.resultCache = sCached.resultCache := by
  have h1 : mapGet sCached.inFlightRequests (keyOf cfgDefault "f" []) = none := rfl
  have h2 : mapGet sCached.resultCache (keyOf cfgDefault "f" []) = some entryW := by
    simp [sCached, initState, mapGet, keyF]
  have h3 : (500 : Int) - entryW.timestamp ≤ cfgDefault.ttlMs := by
    norm_num [entryW, cfgDefault]
  have h := coalesce_cacheHit cfgDefault sCached "f" [] 500 entryW h1 h2 h3
  exact ⟨h1, by simpa [keyF] using h2, h3, h.1, h.2.1⟩

/-! ### Claim C3: the concurrency limit rejects without touching state -/

/-- C3: when the derived key has no in-flight entry, no fresh cache entry, and
the concurrency counter has reached the configured maximum, `coalesce` fails
with the concurrency-limit error and leaves the result cache, the in-flight
table, the concurrency counter and the active executions unchanged. -/
theorem coalesce_reject (cfg : RecoalConfig) (s : RecoalState) (fname : String)
    (args : List JsonValue) (now : Int)
    (hnif : mapGet s.inFlightRequests (keyOf cfg fname args) = none)
    (hstale : ∀ entry, mapGet s.resultCache (keyOf cfg fname args) = some entry →
      ¬(now - entry.timestamp ≤ cfg.ttlMs))
    (hexc : concurrencyExceeded cfg s.currentConcurrency = true) :
    (coalesce cfg s fname args now).1 = .maxConcurrencyError ∧
    (coalesce cfg s fname args now).2.resultCache = s.resultCache ∧
    (coalesce cfg s fname args now).2.inFlightRequests = s.inFlightRequests ∧
    (coalesce cfg s fname args now).2.currentConcurrency = s.currentConcurrency ∧
    (coalesce cfg s fname args now).2.activeCalls = s.activeCalls ∧
    (coalesce cfg s fname args now).2.nextCallId = s.nextCallId := by
  cases hc : mapGet s.resultCache (keyOf cfg fname args) with
  | none => simp [coalesce, dispatchNew, hnif, hc, hexc]
  | some entry => simp [coalesce, dispatchNew, hnif, hc, hstale entry hc, hexc]

/-- Witness for C3 at a concrete saturated state. -/
theorem coalesce_reject_witness :
    mapGet sBusy.inFlightRequests (keyOf cfgLimited "f" []) = none ∧
    concurrencyExceeded cfgLimited sBusy.currentConcurrency = true ∧
    (coalesce cfgLimited sBusy "f" [] 0).1 = .maxConcurrencyError ∧
    (coalesce cfgLimited sBusy "f" [] 0).2.currentConcurrency = sBusy.currentConcurrency := by
  have h1 : mapGet sBusy.inFlightRequests (keyOf cfgLimited "f" []) = none := rfl
  have h2 : ∀ entry, mapGet sBusy.resultCache (keyOf cfgLimited "f" []) = some entry →
      ¬((0 : Int) - entry.timestamp ≤ cfgLimited.ttlMs) := by
    intro entry hentry
    simp [sBusy, initState, mapGet] at hentry
  have h3 : concurrencyExceeded cfgLimited sBusy.currentConcurrency = true := by
    simp [concurrencyExceeded, cfgLimited, sBusy, initState]
  have h := coalesce_reject cfgLimited sBusy "f" [] 0 h1 h2 h3
  exact ⟨h1, h3, h.1, h.2.2.2.1⟩

/-! ### Claim C7: `isCoalesced` characterization and non-mutation -/

/-- C7: `isCoalesced` is true exactly when the derived key has an in-flight
entry or a result-cache entry of age at most TTL, and the call leaves the
state (both mappings, the counter, and the pruning-task flag) untouched. -/
theorem isCoalesced_iff (cfg : RecoalConfig) (s : RecoalState) (fname : String)
    (args : List JsonValue) (now : Int) :
    (isCoalesced cfg s fname args now = true ↔
      mapHas s.inFlightRequests (keyOf cfg fname args) = true ∨
      ∃ entry, mapGet s.resultCache (keyOf cfg fname args) = some entry ∧
        now - entry.timestamp ≤ cfg.ttlMs) ∧
    stepState cfg s (.isCoalescedEv fname args now) = s := by
  refine ⟨?_, rfl⟩
  cases hif : mapHas s.inFlightRequests (keyOf cfg fname args) with
  | true => simp [isCoalesced, hif]
  | false =>
    cases hc : mapGet s.resultCache (keyOf cfg fname args) with
    | none => simp [isCoalesced, hif, hc]
    | some entry => simp [isCoalesced, hif, hc]

/-! ### Claim C9: boundary behaviour at age exactly TTL -/

/-- C9: at age exactly TTL the read path (`coalesce` and `isCoalesced`, which
compare with `<=`) still treats the entry as fresh, the deferred per-entry
expiry check (which compares with `>=`) deletes it, and `prune` (which
compares with `>`) keeps it. -/
theorem ttl_boundary (cfg : RecoalConfig) (s : RecoalState) (fname : String)
    (args : List JsonValue) (now : Int) (entry : CacheEntry)
    (hc : mapGet s.resultCache (keyOf cfg fname args) = some entry)
    (hage : now - entry.timestamp = cfg.ttlMs)
    (hnif : mapGet s.inFlightRequests (keyOf cfg fname args) = none) :
    (coalesce cfg s fname args now).1 = .cachedResult entry.result ∧
    isCoalesced cfg s fname args now = true ∧
    mapGet (expiryCheck cfg s (keyOf cfg fname args) now).resultCache
      (keyOf cfg fname args) = none ∧
    mapGet (prune cfg s now).resultCache (keyOf cfg fname args) = some entry := by
  have hle : now - entry.timestamp ≤ cfg.ttlMs := le_of_eq hage
  refine ⟨?_, ?_, ?_, ?_⟩
  · simp [coalesce, hnif, hc, hle]
  · simp [isCoalesced, mapHas, hnif, hc, hle]
  · have hge : now - entry.timestamp ≥ cfg.ttlMs := ge_of_eq hage
    simp [expiryCheck, hc, hge, mapGet_delete_self]
  · exact mapGet_filter s.resultCache _ entry _ hc (by simp [hage])

/-- Witness for C9: a cached entry aged exactly TTL. -/
theorem ttl_boundary_witness :
    mapGet sCached.resultCache (keyOf cfgDefault "f" []) = some entryW ∧
    (1000 : Int) - entryW.timestamp = cfgDefault.ttlMs ∧
    (coalesce cfgDefault sCached "f" [] 1000).1 = .cachedResult entryW.result ∧
    isCoalesced cfgDefault sCached "f" [] 1000 = true ∧
    mapGet (expiryCheck cfgDefault sCached (keyOf cfgDefault "f" []) 1000).resultCache
      (keyOf cfgDefault "f" []) = none ∧
    mapGet (prune cfgDefault sCached 1000).resultCache (keyOf cfgDefault "f" []) =
      some entryW := by
  have hc : mapGet sCached.resultCache (keyOf cfgDefault "f" []) = some entryW := by
    simp [sCached, initState, mapGet, keyF]
  have hage : (1000 : Int) - entryW.timestamp = cfgDefault.ttlMs := by
    norm_num [entryW, cfgDefault]
  have hnif : mapGet sCached.inFlightRequests (keyOf cfgDefault "f" []) = none := rfl
  have h := ttl_boundary cfgDefault sCached "f" [] 1000 entryW hc hage hnif
  exact ⟨hc, hage, h.1, h.2.1, h.2.2.1, h.2.2.2⟩

/-! ### Claim C10: empty function names resolve to `anonymous` -/

/-- C10: a function whose `name` is the empty string behaves, in `coalesce`,
`isCoalesced` and `invalidate`, exactly as one named `anonymous`; two distinct
anonymous functions derive the same key for the same arguments, and one joins
the other's in-flight entry. -/
theorem anonymous_shared (cfg : RecoalConfig) (s : RecoalState) (args : List JsonValue)
    (now : Int) (cid : Nat) (fname1 fname2 : String)
    (h1 : fname1 = "") (h2 : fname2 = "")
    (hm : mapGet s.inFlightRequests (createKey cfg "anonymous" args) = some cid) :
    coalesce cfg s fname1 args now = coalesce cfg s "anonymous" args now ∧
    isCoalesced cfg s fname1 args now = isCoalesced cfg s "anonymous" args now ∧
    invalidate cfg s fname1 args = invalidate cfg s "anonymous" args ∧
    keyOf cfg fname1 args = keyOf cfg fname2 args ∧
    (coalesce cfg s fname2 args now).1 = .reusedInFlight cid := by
  subst h1
  subst h2
  have hkey : keyOf cfg "" args = createKey cfg "anonymous" args := rfl
  refine ⟨rfl, rfl, rfl, rfl, ?_⟩
  simp [coalesce, hkey, hm]

/-- Witness for C10: two anonymous calls share one in-flight entry. -/
theorem anonymous_shared_witness :
    mapGet sAnon.inFlightRequests (createKey cfgDefault "anonymous" []) = some 0 ∧
    (coalesce cfgDefault sAnon "" [] 0).1 = .reusedInFlight 0 := by
  have hm : mapGet sAnon.inFlightRequests (createKey cfgDefault "anonymous" []) = some 0 := by
    simp [sAnon, mapGet]
  exact ⟨hm, (anonymous_shared cfgDefault sAnon [] 0 0 "" "" rfl rfl hm).2.2.2.2⟩

/-! ### Frame lemmas for the transition functions -/

theorem settle_activeCalls (cfg : RecoalConfig) (s : RecoalState) (cid : Nat)
    (key : String) (out : SettleOutcome) (now : Int) :
    (settle cfg s cid key out now).activeCalls =
      s.activeCalls.filter (fun c => c.1 != cid) := by
  cases out <;> rfl

theorem settle_conc (cfg : RecoalConfig) (s : RecoalState) (cid : Nat)
    (key : String) (out : SettleOutcome) (now : Int) :
    (settle cfg s cid key out now).currentConcurrency = s.currentConcurrency - 1 := by
  cases out <;> rfl

theorem settle_nextCallId (cfg : RecoalConfig) (s : RecoalState) (cid : Nat)
    (key : String) (out : SettleOutcome) (now : Int) :
    (settle cfg s cid key out now).nextCallId = s.nextCallId := by
  cases out <;> rfl

theorem settle_inFlight (cfg : RecoalConfig) (s : RecoalState) (cid : Nat)
    (key : String) (out : SettleOutcome) (now : Int) :
    (settle cfg s cid key out now).inFlightRequests = mapDelete s.inFlightRequests key := by
  cases out <;> rfl

theorem settle_resultCache_failure (cfg : RecoalConfig) (s : RecoalState) (cid : Nat)
    (key : String) (e : JsonValue) (now : Int) :
    (settle cfg s cid key (.failure e) now).resultCache = s.resultCache := rfl

theorem expiryCheck_frame (cfg : RecoalConfig) (s : RecoalState) (key : String) (now : Int) :
    (expiryCheck cfg s key now).inFlightRequests = s.inFlightRequests ∧
    (expiryCheck cfg s key now).currentConcurrency = s.currentConcurrency ∧
    (expiryCheck cfg s key now).activeCalls = s.activeCalls ∧
    (expiryCheck cfg s key now).nextCallId = s.nextCallId := by
  unfold expiryCheck
  cases mapGet s.resultCache key with
  | none => exact ⟨rfl, rfl, rfl, rfl⟩
  | some entry => by_cases h : now - entry.timestamp ≥ cfg.ttlMs <;> simp [h]

/-- The synchronous phase of `coalesce` either leaves the state unchanged
apart from starting the interval, or performs a dispatch for the derived
key (which requires that the key had no in-flight entry). -/
theorem coalesce_state_cases (cfg : RecoalConfig) (s : RecoalState) (fname : String)
    (args : List JsonValue) (now : Int) :
    (coalesce cfg s fname args now).2 = { s with intervalStarted := true } ∨
    ((coalesce cfg s fname args now).1 = .newDispatch s.nextCallId ∧
      (coalesce cfg s fname args now).2 =
        { s with
            intervalStarted := true
            currentConcurrency := s.currentConcurrency + 1
            inFlightRequests := mapSet s.inFlightRequests (keyOf cfg fname args) s.nextCallId
            activeCalls := (s.nextCallId, keyOf cfg fname args) :: s.activeCalls
            nextCallId := s.nextCallId + 1 } ∧
      mapGet s.inFlightRequests (keyOf cfg fname args) = none) := by
  cases h1 : mapGet s.inFlightRequests (keyOf cfg fname args) with
  | some cid => left; simp [coalesce, h1]
  | none =>
    cases h2 : mapGet s.resultCache (keyOf cfg fname args) with
    | some entry =>
      by_cases h3 : now - entry.timestamp ≤ cfg.ttlMs
      · left; simp [coalesce, h1, h2, h3]
      · by_cases h4 : concurrencyExceeded cfg s.currentConcurrency = true
        · left; simp [coalesce, dispatchNew, h1, h2, h3, h4]
        · right
          simp only [Bool.not_eq_true] at h4
          simp [coalesce, dispatchNew, h1, h2, h3, h4]
    | none =>
      by_cases h4 : concurrencyExceeded cfg s.currentConcurrency = true
      · left; simp [coalesce, dispatchNew, h1, h2, h4]
      · right
        simp only [Bool.not_eq_true] at h4
        simp [coalesce, dispatchNew, h1, h2, h4]

/-! ### List helper lemmas -/

theorem nodup_fst_eq {l : List (Nat × String)} (hn : (l.map Prod.fst).Nodup)
    {a : Nat} {b c : String} (h1 : (a, b) ∈ l) (h2 : (a, c) ∈ l) : b = c := by
  induction l with
  | nil => cases h1
  | cons p rest ih =>
    rw [List.map_cons, List.nodup_cons] at hn
    rcases List.mem_cons.mp h1 with e1 | m1 <;> rcases List.mem_cons.mp h2 with e2 | m2
    · rw [← e1] at e2; exact (Prod.mk.injEq _ _ _ _ ▸ e2).2.symm ▸ rfl
    · exfalso
      exact hn.1 (e1 ▸ (List.mem_map.mpr ⟨(a, c), m2, rfl⟩))
    · exfalso
      exact hn.1 (e2 ▸ (List.mem_map.mpr ⟨(a, b), m1, rfl⟩))
    · exact ih hn.2 m1 m2

theorem filter_ne_length {l : List (Nat × String)} {cid : Nat} {key : String}
    (hn : (l.map Prod.fst).Nodup) (hm : (cid, key) ∈ l) :
    (l.filter (fun c => c.1 != cid)).length + 1 = l.length := by
  induction l with
  | nil => cases hm
  | cons p rest ih =>
    rw [List.map_cons, List.nodup_cons] at hn
    rcases List.mem_cons.mp hm with heq | hmem
    · have hall : rest.filter (fun c => c.1 != cid) = rest := by
        apply List.filter_eq_self.mpr
        intro a ha
        have : a.1 ≠ cid := by
          intro hac
          exact hn.1 (heq ▸ hac ▸ List.mem_map.mpr ⟨a, ha, rfl⟩)
        simpa using this
      have hp : (p.1 != cid) = false := by
        rw [← heq]
        simp
      simp [List.filter_cons, hp, hall]
    · have hpne : p.1 ≠ cid := by
        intro hac
        exact hn.1 (hac ▸ List.mem_map.mpr ⟨(cid, key), hmem, rfl⟩)
      have hp : (p.1 != cid) = true := by simpa using hpne
      have := ih hn.2 hmem
      simp only [List.filter_cons, hp, if_true, List.length_cons]
      omega

/-! ### The bookkeeping invariant holds in every reachable state -/

theorem reachable_inv {cfg : RecoalConfig} {s : RecoalState}
    (h : Reachable cfg s) : StateInv s := by
  induction h with
  | init => exact ⟨by simp [initState], by simp [initState], by simp [initState]⟩
  | @step s e hprev henabled ih =>
    obtain ⟨ihA, ihB, ihC⟩ := ih
    cases e with
    | coalesceEv f a now =>
      rcases coalesce_state_cases cfg s f a now with hcase | ⟨hres, hcase, hnone⟩
      · simp only [stepState, hcase]
        exact ⟨ihA, ihB, ihC⟩
      · simp only [stepState, hcase]
        refine ⟨?_, ?_, ?_⟩
        · intro p hp
          rcases List.mem_cons.mp hp with he | hm
          · simp [he]
          · exact Nat.lt_succ_of_lt (ihA p hm)
        · rw [List.map_cons, List.nodup_cons]
          refine ⟨?_, ihB⟩
          intro hin
          rcases List.mem_map.mp hin with ⟨q, hq, hq1⟩
          exact absurd (hq1 ▸ ihA q hq) (lt_irrefl _)
        · simp [ihC]
    | settleEv cid key out now =>
      have hact : (cid, key) ∈ s.activeCalls := henabled
      refine ⟨?_, ?_, ?_⟩
      · intro p hp
        rw [stepState, settle_activeCalls] at hp
        rw [stepState, settle_nextCallId]
        exact ihA p (List.mem_of_mem_filter hp)
      · rw [stepState, settle_activeCalls]
        exact ihB.sublist (List.Sublist.map _ (List.filter_sublist _))
      · rw [stepState, settle_conc, settle_activeCalls, ihC]
        have := filter_ne_length ihB hact
        omega
    | isCoalescedEv f a now => exact ⟨ihA, ihB, ihC⟩
    | invalidateEv f a => exact ⟨ihA, ihB, ihC⟩
    | clearEv => exact ⟨ihA, ihB, ihC⟩
    | pruneEv now => exact ⟨ihA, ihB, ihC⟩
    | expireEv k now =>
      obtain ⟨hf1, hf2, hf3, hf4⟩ := expiryCheck_frame cfg s k now
      unfold StateInv
      rw [stepState, hf2, hf3, hf4]
      exact ⟨ihA, ihB, ihC⟩

theorem reachableND_reachable {cfg : RecoalConfig} {s : RecoalState}
    (h : ReachableND cfg s) : Reachable cfg s := by
  induction h with
  | init => exact .init
  | step hprev henabled hnd ih => exact .step ih henabled

/-- In every run without `invalidate`/`clear`, the in-flight table is exactly
the graph of the active executions. -/
theorem reachableND_mapMatches {cfg : RecoalConfig} {s : RecoalState}
    (h : ReachableND cfg s) : MapMatchesActive s := by
  induction h with
  | init =>
    intro k cid
    simp [initState, mapGet]
  | @step s e hprev henabled hnd ih =>
    have hinv := reachable_inv (reachableND_reachable hprev)
    cases e with
    | coalesceEv f a now =>
      rcases coalesce_state_cases cfg s f a now with hcase | ⟨hres, hcase, hnone⟩
      · intro k cid
        simp only [stepState, hcase]
        exact ih k cid
      · intro k cid
        simp only [stepState, hcase]
        by_cases hk : k = keyOf cfg f a
        · subst hk
          rw [mapGet_set_self]
          constructor
          · intro hsome
            have hcid : s.nextCallId = cid := Option.some.inj hsome
            subst hcid
            exact List.mem_cons_self _ _
          · intro hmem
            rcases List.mem_cons.mp hmem with he | hm
            · injection he with hc1 hc2
              subst hc1
              rfl
            · exact absurd ((ih _ cid).mpr hm) (by simp [hnone])
        · rw [mapGet_set_ne _ _ _ _ hk]
          constructor
          · intro hsome
            exact List.mem_cons.mpr (Or.inr ((ih k cid).mp hsome))
          · intro hmem
            rcases List.mem_cons.mp hmem with he | hm
            · exact absurd (Prod.mk.injEq _ _ _ _ ▸ he).2 hk
            · exact (ih k cid).mpr hm
    | settleEv cid0 key0 out now =>
      have hact : (cid0, key0) ∈ s.activeCalls := henabled
      intro k cid
      rw [stepState, settle_inFlight, settle_activeCalls]
      by_cases hk : k = key0
      · subst hk
        rw [mapGet_delete_self]
        constructor
        · intro hsome; cases hsome
        · intro hmem
          have h1 : (cid, k) ∈ s.activeCalls := (List.mem_filter.mp hmem).1
          have h2 : (cid != cid0) = true := (List.mem_filter.mp hmem).2
          have e1 := (ih k cid).mpr h1
          have e2 := (ih k cid0).mpr hact
          rw [e1] at e2
          exact absurd (Option.some.inj e2) (by simpa using h2)
      · rw [mapGet_delete_ne _ _ _ hk]
        constructor
        · intro hsome
          have h1 := (ih k cid).mp hsome
          have hne : cid ≠ cid0 := by
            intro he
            subst he
            exact hk (nodup_fst_eq hinv.2.1 h1 hact)
          exact List.mem_filter.mpr ⟨h1, by simpa using hne⟩
        · intro hmem
          exact (ih k cid).mpr (List.mem_of_mem_filter hmem)
    | isCoalescedEv f a now => exact ih
    | invalidateEv f a => exact hnd.elim
    | clearEv => exact hnd.elim
    | pruneEv now =>
      intro k cid
      exact ih k cid
    | expireEv k0 now =>
      obtain ⟨hf1, hf2, hf3, hf4⟩ := expiryCheck_frame cfg s k0 now
      intro k cid
      rw [stepState, hf1, hf3]
      exact ih k cid

/-! ### Concrete states of the invalidate/redispatch scenario -/

theorem cexS1_eq :
    cexS1 = { resultCache := [], inFlightRequests := [(keyF, 0)], currentConcurrency := 1,
              intervalStarted := true, nextCallId := 1, activeCalls := [(0, keyF)] } := by
  simp [cexS1, stepState, coalesce, dispatchNew, initState, mapGet, mapSet,
        concurrencyExceeded, cfgDefault, keyF]

theorem cexS2_eq :
    cexS2 = { resultCache := [], inFlightRequests := [], currentConcurrency := 1,
              intervalStarted := true, nextCallId := 1, activeCalls := [(0, keyF)] } := by
  rw [cexS2, cexS1_eq]
  simp [stepState, invalidate, mapDelete, keyF]

theorem cexS3_eq :
    cexS3 = { resultCache := [], inFlightRequests := [(keyF, 1)], currentConcurrency := 2,
              intervalStarted := true, nextCallId := 2,
              activeCalls := [(1, keyF), (0, keyF)] } := by
  rw [cexS3, cexS2_eq]
  simp [stepState, coalesce, dispatchNew, mapGet, mapSet, concurrencyExceeded,
        cfgDefault, keyF]

theorem cexS4_eq :
    cexS4 = { resultCache := [], inFlightRequests := [], currentConcurrency := 1,
              intervalStarted := true, nextCallId := 2, activeCalls := [(1, keyF)] } := by
  rw [cexS4, cexS3_eq]
  simp [stepState, settle, mapDelete, List.filter]

/-! ### Claim C2 — refuted as stated, amended to runs without invalidate/clear -/

/-- C2 counterexample: with `invalidate` in the interleaving the claimed
invariant fails.  After `coalesce` (dispatching call 0), `invalidate`, and a
second `coalesce`, the reachable state `cexS3` has two active executions of
the operation for the same key, and the second `coalesce` call dispatched a
new execution while call 0 was still in flight. -/
theorem mutual_exclusion_cex :
    Reachable cfgDefault cexS3 ∧
    (0, keyF) ∈ cexS3.activeCalls ∧ (1, keyF) ∈ cexS3.activeCalls ∧
    (0, keyF) ∈ cexS2.activeCalls ∧
    (coalesce cfgDefault cexS2 "f" [] 0).1 = .newDispatch 1 := by
  refine ⟨?_, ?_, ?_, ?_, ?_⟩
  · exact .step (.step (.step .init trivial) trivial) trivial
  · rw [cexS3_eq]; simp
  · rw [cexS3_eq]; simp
  · rw [cexS2_eq]; simp
  · rw [cexS2_eq]
    simp [coalesce, dispatchNew, mapGet, concurrencyExceeded, cfgDefault, keyF]

/-- C2 (amended): in every run that never calls `invalidate` or `clear`, at
most one execution of the wrapped operation is active per cache key at any
instant, and a `coalesce` call for a key with an in-flight entry returns that
entry's promise instead of dispatching a new execution. -/
theorem mutual_exclusion (cfg : RecoalConfig) (s : RecoalState) (c1 c2 : Nat)
    (k : String) (fname : String) (args : List JsonValue) (now : Int) (cid : Nat)
    (hs : ReachableND cfg s)
    (h1 : (c1, k) ∈ s.activeCalls) (h2 : (c2, k) ∈ s.activeCalls)
    (hm : mapGet s.inFlightRequests (keyOf cfg fname args) = some cid) :
    c1 = c2 ∧ (coalesce cfg s fname args now).1 = .reusedInFlight cid := by
  have hmm := reachableND_mapMatches hs
  constructor
  · exact Option.some.inj (((hmm k c1).mpr h1).symm.trans ((hmm k c2).mpr h2))
  · simp [coalesce, hm]

/-- Witness for the amended C2 at the reachable state `cexS1`. -/
theorem mutual_exclusion_witness :
    ReachableND cfgDefault cexS1 ∧
    (0, keyF) ∈ cexS1.activeCalls ∧
    mapGet cexS1.inFlightRequests keyF = some 0 ∧
    (0 = 0 ∧ (coalesce cfgDefault cexS1 "f" [] 0).1 = .reusedInFlight 0) := by
  have hs : ReachableND cfgDefault cexS1 := .step .init trivial trivial
  have h1 : (0, keyF) ∈ cexS1.activeCalls := by rw [cexS1_eq]; simp
  have hm : mapGet cexS1.inFlightRequests (keyOf cfgDefault "f" []) = some 0 := by
    rw [cexS1_eq]
    simp [mapGet, keyF]
  exact ⟨hs, h1, by simpa [keyF] using hm,
    mutual_exclusion cfgDefault cexS1 0 0 keyF "f" [] 0 0 hs h1 h1 hm⟩

/-! ### Claim C5: settlement cleanup is unconditional -/

/-- C5: when a dispatched call settles (success or failure alike), the
in-flight entry for its key is removed, the concurrency counter is
decremented by exactly one, and the call is no longer active; in particular
no in-flight entry for the key survives the settlement. -/
theorem settle_cleanup (cfg : RecoalConfig) (s : RecoalState) (cid : Nat)
    (key : String) (out : SettleOutcome) (now : Int)
    (hr : Reachable cfg s) (hact : (cid, key) ∈ s.activeCalls) :
    mapGet (settle cfg s cid key out now).inFlightRequests key = none ∧
    (settle cfg s cid key out now).currentConcurrency + 1 = s.currentConcurrency ∧
    (cid, key) ∉ (settle cfg s cid key out now).activeCalls := by
  have hinv := reachable_inv hr
  refine ⟨?_, ?_, ?_⟩
  · rw [settle_inFlight]
    exact mapGet_delete_self _ _
  · rw [settle_conc, hinv.2.2]
    have := filter_ne_length hinv.2.1 hact
    omega
  · rw [settle_activeCalls]
    intro hmem
    have := (List.mem_filter.mp hmem).2
    simp at this

/-- Witness for C5: settling call 0 in the reachable state `cexS1`. -/
theorem settle_cleanup_witness :
    Reachable cfgDefault cexS1 ∧ (0, keyF) ∈ cexS1.activeCalls ∧
    mapGet (settle cfgDefault cexS1 0 keyF (.success (.num 1)) 3).inFlightRequests keyF = none ∧
    (settle cfgDefault cexS1 0 keyF (.success (.num 1)) 3).currentConcurrency + 1 =
      cexS1.currentConcurrency := by
  have hr : Reachable cfgDefault cexS1 := .step .init trivial
  have hact : (0, keyF) ∈ cexS1.activeCalls := by rw [cexS1_eq]; simp
  have h := settle_cleanup cfgDefault cexS1 0 keyF (.success (.num 1)) 3 hr hact
  exact ⟨hr, hact, h.1, h.2.1⟩

/-! ### Claim C4: failures are shared, never cached, and retried -/

/-- C4: every caller that joins an in-flight entry receives the same promise
(hence observes the identical failure when that single settlement fails); a
failing settlement leaves the result cache exactly as it was (no entry is
created for the key); and a subsequent `coalesce` for the key (with no fresh
cache entry and free capacity) dispatches the operation again. -/
theorem failure_propagation (cfg : RecoalConfig) (s s0 : RecoalState) (cid : Nat)
    (key : String) (e : JsonValue) (now now0 now2 : Int) (fname : String)
    (args : List JsonValue)
    (hkey : keyOf cfg fname args = key)
    (hjoin : mapGet s0.inFlightRequests key = some cid)
    (_hact : (cid, key) ∈ s.activeCalls)
    (hstale : ∀ entry,
      mapGet (settle cfg s cid key (.failure e) now).resultCache key = some entry →
      ¬(now2 - entry.timestamp ≤ cfg.ttlMs))
    (hcap : concurrencyExceeded cfg
      (settle cfg s cid key (.failure e) now).currentConcurrency = false) :
    (coalesce cfg s0 fname args now0).1 = .reusedInFlight cid ∧
    (settle cfg s cid key (.failure e) now).resultCache = s.resultCache ∧
    (coalesce cfg (settle cfg s cid key (.failure e) now) fname args now2).1 =
      .newDispatch (settle cfg s cid key (.failure e) now).nextCallId := by
  subst hkey
  refine ⟨by simp [coalesce, hjoin], settle_resultCache_failure cfg s cid _ e now, ?_⟩
  set s2 := settle cfg s cid (keyOf cfg fname args) (.failure e) now with hs2
  have hnif : mapGet s2.inFlightRequests (keyOf cfg fname args) = none := by
    rw [hs2, settle_inFlight]
    exact mapGet_delete_self _ _
  cases hc : mapGet s2.resultCache (keyOf cfg fname args) with
  | none => simp [coalesce, dispatchNew, hnif, hc, hcap]
  | some entry => simp [coalesce, dispatchNew, hnif, hc, hstale entry hc, hcap]

/-- Witness for C4: call 0 for `keyF` fails in the reachable state `cexS1`. -/
theorem failure_propagation_witness :
    mapGet cexS1.inFlightRequests keyF = some 0 ∧
    (0, keyF) ∈ cexS1.activeCalls ∧
    (coalesce cfgDefault cexS1 "f" [] 0).1 = .reusedInFlight 0 ∧
    (settle cfgDefault cexS1 0 keyF (.failure .null) 4).resultCache = cexS1.resultCache ∧
    (coalesce cfgDefault (settle cfgDefault cexS1 0 keyF (.failure .null) 4) "f" [] 5).1 =
      .newDispatch (settle cfgDefault cexS1 0 keyF (.failure .null) 4).nextCallId := by
  have hjoin : mapGet cexS1.inFlightRequests keyF = some 0 := by
    rw [cexS1_eq]; simp [mapGet]
  have hact : (0, keyF) ∈ cexS1.activeCalls := by rw [cexS1_eq]; simp
  have hstale : ∀ entry,
      mapGet (settle cfgDefault cexS1 0 keyF (.failure .null) 4).resultCache keyF =
        some entry → ¬((5 : Int) - entry.timestamp ≤ cfgDefault.ttlMs) := by
    intro entry hentry
    rw [settle_resultCache_failure, cexS1_eq] at hentry
    simp [mapGet] at hentry
  have hcap : concurrencyExceeded cfgDefault
      (settle cfgDefault cexS1 0 keyF (.failure .null) 4).currentConcurrency = false := rfl
  have h := failure_propagation cfgDefault cexS1 cexS1 0 keyF .null 4 0 5 "f" []
    rfl hjoin hact hstale hcap
  exact ⟨hjoin, hact, h.1, h.2.1, h.2.2⟩

/-! ### Claim C8 — refuted as stated, amended: late cleanup deletes whatever
entry is at the key -/

/-- C8 counterexample: the detached call's late cleanup is not harmless to a
later dispatch.  In the reachable state `cexS3`, call 1's in-flight entry is
registered for `keyF` and call 1 is still active, yet after the detached call
0 settles the entry is gone (`cexS4`) even though call 1 has not settled. -/
theorem invalidate_lateCleanup_cex :
    Reachable cfgDefault cexS4 ∧
    mapGet cexS3.inFlightRequests keyF = some 1 ∧
    (1, keyF) ∈ cexS3.activeCalls ∧ (0, keyF) ∈ cexS3.activeCalls ∧
    mapGet cexS4.inFlightRequests keyF = none ∧
    (1, keyF) ∈ cexS4.activeCalls := by
  refine ⟨?_, ?_, ?_, ?_, ?_, ?_⟩
  · have hen : Enabled cexS3 (.settleEv 0 keyF (.failure .null) 5) := by
      show (0, keyF) ∈ cexS3.activeCalls
      rw [cexS3_eq]; simp
    exact .step (.step (.step (.step .init trivial) trivial) trivial) hen
  · rw [cexS3_eq]; simp [mapGet]
  · rw [cexS3_eq]; simp
  · rw [cexS3_eq]; simp
  · rw [cexS4_eq]; simp [mapGet]
  · rw [cexS4_eq]; simp

/-- C8 (amended): `invalidate` removes the result-cache entry and the
in-flight entry for the derived key, leaves every other key's entries
unchanged, and cancels nothing (the active executions and the concurrency
counter are untouched); the detached call's settlement then removes whatever
in-flight entry is present at its key — a no-op when the entry is already
absent, but it also deletes an entry created by a later dispatch for the same
key. -/
theorem invalidate_detaches (cfg : RecoalConfig) (s sl : RecoalState) (fname : String)
    (args : List JsonValue) (k2 : String) (cid : Nat) (out : SettleOutcome) (now : Int)
    (hk2 : k2 ≠ keyOf cfg fname args) :
    mapGet (invalidate cfg s fname args).resultCache (keyOf cfg fname args) = none ∧
    mapGet (invalidate cfg s fname args).inFlightRequests (keyOf cfg fname args) = none ∧
    mapGet (invalidate cfg s fname args).resultCache k2 = mapGet s.resultCache k2 ∧
    mapGet (invalidate cfg s fname args).inFlightRequests k2 = mapGet s.inFlightRequests k2 ∧
    (invalidate cfg s fname args).activeCalls = s.activeCalls ∧
    (invalidate cfg s fname args).currentConcurrency = s.currentConcurrency ∧
    mapGet (settle cfg sl cid (keyOf cfg fname args) out now).inFlightRequests
      (keyOf cfg fname args) = none := by
  refine ⟨mapGet_delete_self _ _, mapGet_delete_self _ _,
    mapGet_delete_ne _ _ _ hk2, mapGet_delete_ne _ _ _ hk2, rfl, rfl, ?_⟩
  rw [settle_inFlight]
  exact mapGet_delete_self _ _

/-- The derived key for `f` starts with the characters of the function name,
so it differs from the unrelated key `"g"`. -/
theorem g_ne_keyF : "g" ≠ keyF := by
  intro h
  have h2 : ("g").data = 'f' :: '|' :: (stringify (.arr [])).data :=
    congrArg String.data h
  injection h2 with ha hb
  exact absurd ha (by decide)

/-- Witness for the amended C8: invalidating `keyF` in `cexS1`, and the late
cleanup of call 0 deleting call 1's entry in `cexS3`. -/
theorem invalidate_detaches_witness :
    "g" ≠ keyF ∧
    mapGet (invalidate cfgDefault cexS1 "f" []).inFlightRequests keyF = none ∧
    (invalidate cfgDefault cexS1 "f" []).activeCalls = cexS1.activeCalls ∧
    mapGet (settle cfgDefault cexS3 0 keyF (.failure .null) 5).inFlightRequests keyF =
      none := by
  have h := invalidate_detaches cfgDefault cexS1 cexS3 "f" [] "g" 0
    (.failure .null) 5 (by simpa [keyF] using g_ne_keyF)
  exact ⟨g_ne_keyF, by simpa [keyF] using h.2.1, h.2.2.2.2.1,
    by simpa [keyF] using h.2.2.2.2.2.2⟩

/-! ### Canonicalization lemmas for the default key generator -/

theorem canonList_eq_map (xs : List JsonValue) : canonList xs = xs.map canon := by
  induction xs with
  | nil => rfl
  | cons x xs ih => simp [canonList, ih]

theorem canonFields_eq_map (fs : List (String × JsonValue)) :
    canonFields fs = fs.map (fun p => (p.1, canon p.2)) := by
  induction fs with
  | nil => rfl
  | cons p fs ih =>
    obtain ⟨k, v⟩ := p
    simp [canonFields, ih]

theorem canonFields_keys (fs : List (String × JsonValue)) :
    (canonFields fs).map Prod.fst = fs.map Prod.fst := by
  rw [canonFields_eq_map, List.map_map]
  rfl

theorem wfList_mem {xs : List JsonValue} (h : wfList xs = true) {x : JsonValue}
    (hx : x ∈ xs) : wellFormed x = true := by
  induction xs with
  | nil => cases hx
  | cons y xs ih =>
    rw [wfList, Bool.and_eq_true] at h
    rcases List.mem_cons.mp hx with he | hm
    · exact he ▸ h.1
    · exact ih h.2 hm

theorem wfFields_mem {fs : List (String × JsonValue)} (h : wfFields fs = true)
    {p : String × JsonValue} (hp : p ∈ fs) : wellFormed p.2 = true := by
  induction fs with
  | nil => cases hp
  | cons q fs ih =>
    obtain ⟨k, v⟩ := q
    rw [wfFields, Bool.and_eq_true] at h
    rcases List.mem_cons.mp hp with he | hm
    · exact he ▸ h.1
    · exact ih h.2 hm

theorem strNodup_iff (ks : List String) : strNodup ks = true ↔ ks.Nodup := by
  induction ks with
  | nil => simp [strNodup]
  | cons k ks ih => simp [strNodup, ih, List.elem_iff]

theorem sortPairs_perm (fs : List (String × JsonValue)) : (sortPairs fs).Perm fs :=
  List.perm_insertionSort keyLe fs

theorem sortPairs_sorted (fs : List (String × JsonValue)) :
    (sortPairs fs).Sorted keyLe :=
  List.sorted_insertionSort keyLe fs

/-- Two key-sorted association lists that are permutations of each other and
have duplicate-free keys are equal. -/
theorem sorted_keyLe_perm_nodup_eq :
    ∀ {l1 l2 : List (String × JsonValue)}, l1.Perm l2 → l1.Sorted keyLe →
      l2.Sorted keyLe → (l1.map Prod.fst).Nodup → l1 = l2 := by
  intro l1
  induction l1 with
  | nil =>
    intro l2 hp _ _ _
    exact (hp.symm.eq_nil).symm ▸ rfl
  | cons a t1 ih =>
    intro l2 hp hs1 hs2 hn
    cases l2 with
    | nil => exact absurd hp.eq_nil (by simp)
    | cons b t2 =>
      rw [List.map_cons, List.nodup_cons] at hn
      have hab : a = b := by
        have hain : a ∈ b :: t2 := hp.subset (List.mem_cons_self _ _)
        rcases List.mem_cons.mp hain with he | hat2
        · exact he
        · have hbin : b ∈ a :: t1 := hp.symm.subset (List.mem_cons_self _ _)
          rcases List.mem_cons.mp hbin with he | hbt1
          · exact he.symm
          · exfalso
            have h1 : keyLe a b := (List.sorted_cons.mp hs1).1 b hbt1
            have h2 : keyLe b a := (List.sorted_cons.mp hs2).1 a hat2
            have hk : a.1 = b.1 := le_antisymm h1 h2
            exact hn.1 (hk ▸ List.mem_map.mpr ⟨b, hbt1, rfl⟩)
      subst hab
      have ht : t1 = t2 :=
        ih hp.cons_inv (List.sorted_cons.mp hs1).2 (List.sorted_cons.mp hs2).2 hn.2
      rw [ht]

theorem sortPairs_eq_of_perm {l1 l2 : List (String × JsonValue)} (hp : l1.Perm l2)
    (hn : (l1.map Prod.fst).Nodup) : sortPairs l1 = sortPairs l2 := by
  apply sorted_keyLe_perm_nodup_eq
  · exact (sortPairs_perm l1).trans (hp.trans (sortPairs_perm l2).symm)
  · exact sortPairs_sorted l1
  · exact sortPairs_sorted l2
  · exact (((sortPairs_perm l1).map Prod.fst).nodup_iff).mpr hn

/-- Arguments that are structurally equal up to object-key insertion order
have the same canonical form (the left value must be well formed so that its
objects have duplicate-free keys). -/
theorem permEq_canon {a b : JsonValue} (h : PermEq a b) :
    wellFormed a = true → canon a = canon b := by
  induction h with
  | null => intro _; rfl
  | bool b => intro _; rfl
  | num n => intro _; rfl
  | str s => intro _; rfl
  | @arr xs ys hlen hpe ih =>
    intro hw
    rw [wellFormed] at hw
    show JsonValue.arr (canonList xs) = JsonValue.arr (canonList ys)
    rw [canonList_eq_map, canonList_eq_map]
    congr 1
    apply List.ext_getElem (by simpa using hlen)
    intro i h1 h2
    rw [List.getElem_map, List.getElem_map]
    have hi1 : i < xs.length := by simpa using h1
    have hi2 : i < ys.length := by simpa using h2
    have hmem : xs.get ⟨i, hi1⟩ ∈ xs := xs.get_mem i hi1
    have := ih i hi1 hi2 (wfList_mem hw hmem)
    simpa [List.get_eq_getElem] using this
  | @obj fs gs2 gs hlen hk hv hperm ih =>
    intro hw
    rw [wellFormed, Bool.and_eq_true] at hw
    show JsonValue.obj (sortPairs (canonFields fs)) =
      JsonValue.obj (sortPairs (canonFields gs))
    congr 1
    have hstep1 : canonFields fs = canonFields gs2 := by
      rw [canonFields_eq_map, canonFields_eq_map]
      apply List.ext_getElem (by simpa using hlen)
      intro i h1 h2
      rw [List.getElem_map, List.getElem_map]
      have hi1 : i < fs.length := by simpa using h1
      have hi2 : i < gs2.length := by simpa using h2
      have hmem : fs.get ⟨i, hi1⟩ ∈ fs := fs.get_mem i hi1
      have hkey := hk i hi1 hi2
      have hval := ih i hi1 hi2 (wfFields_mem hw.2 hmem)
      simp only [List.get_eq_getElem] at hkey hval
      exact Prod.ext hkey hval
    have hstep2 : (canonFields gs2).Perm (canonFields gs) := by
      rw [canonFields_eq_map, canonFields_eq_map]
      exact hperm.map _
    have hkeys : gs2.map Prod.fst = fs.map Prod.fst := by
      apply List.ext_getElem (by simpa using hlen.symm)
      intro i h1 h2
      rw [List.getElem_map, List.getElem_map]
      have hi1 : i < fs.length := by simpa using h2
      have hi2 : i < gs2.length := by simpa using h1
      have := hk i hi1 hi2
      simp only [List.get_eq_getElem] at this
      exact this.symm
    rw [hstep1]
    apply sortPairs_eq_of_perm hstep2
    rw [canonFields_keys, hkeys]
    exact (strNodup_iff _).mp hw.1

/-! ### Reading back serialized values: digits, literals, strings -/

theorem jdigit_isDigit (d : Nat) : (jdigit d).isDigit = true := by
  unfold jdigit
  split <;> decide

theorem digitVal_jdigit {d : Nat} (h : d < 10) : digitVal (jdigit d) = d := by
  interval_cases d <;> decide

theorem isDigit_ne {c : Char} (h : c.isDigit = true) :
    c ≠ ']' ∧ c ≠ '"' ∧ c ≠ '[' ∧ c ≠ '{' ∧ c ≠ '-' ∧ c ≠ 'n' ∧ c ≠ 't' ∧ c ≠ 'f' := by
  refine ⟨?_, ?_, ?_, ?_, ?_, ?_, ?_, ?_⟩ <;>
    (intro he; rw [he] at h; exact absurd h (by decide))

theorem natChars_ne_nil (n : Nat) : natChars n ≠ [] := by
  unfold natChars
  split
  · simp
  · rw [Ne, List.reverse_eq_nil_iff, List.map_eq_nil_iff]
    exact Nat.digits_ne_nil_iff_ne_zero.mpr (by assumption)

theorem natChars_digits (n : Nat) : ∀ c ∈ natChars n, c.isDigit = true := by
  intro c hc
  unfold natChars at hc
  split at hc
  · simp at hc
    rw [hc]
    decide
  · rw [List.mem_reverse] at hc
    rcases List.mem_map.mp hc with ⟨d, _, he⟩
    exact he ▸ jdigit_isDigit d

theorem digitsToNat_append (xs : List Char) (c : Char) :
    digitsToNat (xs ++ [c]) = digitsToNat xs * 10 + digitVal c := by
  unfold digitsToNat
  rw [List.foldl_append]
  rfl

theorem digitsToNat_natChars (n : Nat) : digitsToNat (natChars n) = n := by
  unfold natChars
  split
  · subst_vars
    decide
  · have key : ∀ L : List Nat, (∀ d ∈ L, d < 10) →
        digitsToNat ((L.map jdigit).reverse) = Nat.ofDigits 10 L := by
      intro L
      induction L with
      | nil =>
        intro _
        rfl
      | cons d L ih =>
        intro hall
        rw [List.map_cons, List.reverse_cons, digitsToNat_append,
          ih (fun x hx => hall x (List.mem_cons_of_mem _ hx)),
          digitVal_jdigit (hall d (List.mem_cons_self _ _)), Nat.ofDigits_cons]
        omega
    rw [key _ (fun d hd => Nat.digits_lt_base (by norm_num) hd), Nat.ofDigits_digits]

theorem takeDigits_append {ds : List Char} (hds : ∀ c ∈ ds, c.isDigit = true)
    {rest : List Char} (hrest : noLeadDigit rest = true) :
    takeDigits (ds ++ rest) = (ds, rest) := by
  induction ds with
  | nil =>
    cases rest with
    | nil => rfl
    | cons c r =>
      rw [noLeadDigit] at hrest
      simp only [Bool.not_eq_eq_eq_not, Bool.not_true] at hrest
      simp [takeDigits, hrest]
  | cons c ds ih =>
    have hc := hds c (List.mem_cons_self _ _)
    rw [List.cons_append]
    simp [takeDigits, hc, ih (fun x hx => hds x (List.mem_cons_of_mem _ hx))]

theorem dropLit_append (lit rest : List Char) : dropLit lit (lit ++ rest) = some rest := by
  induction lit with
  | nil => rfl
  | cons c l ih => simp [dropLit, ih]

theorem readStrChars_escape (s : List Char) (rest : List Char) :
    readStrChars (escapeStr s ++ '"' :: rest) = some (s, rest) := by
  induction s with
  | nil => simp [escapeStr, readStrChars]
  | cons c s ih =>
    by_cases hc : c = '"' ∨ c = '\\'
    · have he : escapeStr (c :: s) = '\\' :: c :: escapeStr s := by
        simp [escapeStr, escapeChar, hc]
      rw [he]
      simp [readStrChars, readStrEsc, ih]
    · push_neg at hc
      have he : escapeStr (c :: s) = c :: escapeStr s := by
        simp [escapeStr, escapeChar, hc.1, hc.2]
      rw [he, List.cons_append]
      simp [readStrChars, hc.1, hc.2, ih]

theorem ser_head (v : JsonValue) :
    ∃ c cs, serializePlain v = c :: cs ∧ c ≠ ']' := by
  cases v with
  | null => exact ⟨'n', ['u', 'l', 'l'], by simp [serializePlain], by decide⟩
  | bool b =>
    cases b with
    | false => exact ⟨'f', ['a', 'l', 's', 'e'], by simp [serializePlain], by decide⟩
    | true => exact ⟨'t', ['r', 'u', 'e'], by simp [serializePlain], by decide⟩
  | num n =>
    cases n with
    | ofNat m =>
      obtain ⟨c, cs, hcs⟩ := List.exists_cons_of_ne_nil (natChars_ne_nil m)
      refine ⟨c, cs, by simp [serializePlain, intChars, hcs], ?_⟩
      have hmem : c ∈ natChars m := hcs ▸ List.mem_cons_self _ _
      exact (isDigit_ne (natChars_digits m c hmem)).1
    | negSucc m =>
      exact ⟨'-', natChars (m + 1), by simp [serializePlain, intChars], by decide⟩
  | str s =>
    exact ⟨'"', escapeStr s.data ++ ['"'], by simp [serializePlain], by decide⟩
  | arr xs => exact ⟨'[', serElems xs ++ [']'], by simp [serializePlain], by decide⟩
  | obj fs => exact ⟨'{', serMembers fs ++ ['}'], by simp [serializePlain], by decide⟩

theorem jfuel_pos (v : JsonValue) : 1 ≤ jfuel v := by
  cases v <;> simp [jfuel] <;> omega

theorem jfuelElems_pos (xs : List JsonValue) : 1 ≤ jfuelElems xs := by
  cases xs <;> simp [jfuelElems] <;> omega

theorem jfuelMembers_pos (fs : List (String × JsonValue)) : 1 ≤ jfuelMembers fs := by
  cases fs with
  | nil => simp [jfuelMembers]
  | cons p fs =>
    obtain ⟨k, v⟩ := p
    simp [jfuelMembers]
    omega

/-- The reader inverts the plain serializer (with enough fuel, and a
continuation that does not begin with a digit). -/
theorem read_roundtrip (fuel : Nat) :
    (∀ v rest, jfuel v ≤ fuel → noLeadDigit rest = true →
      readVal fuel (serializePlain v ++ rest) = some (v, rest)) ∧
    (∀ xs rest, jfuelElems xs ≤ fuel →
      readElems fuel (serElems xs ++ ']' :: rest) = some (xs, rest)) ∧
    (∀ fs rest, jfuelMembers fs ≤ fuel →
      readMembers fuel (serMembers fs ++ '}' :: rest) = some (fs, rest)) := by
  induction fuel with
  | zero =>
    refine ⟨fun v rest hf _ => absurd hf ?_, fun xs rest hf => absurd hf ?_,
            fun fs rest hf => absurd hf ?_⟩
    · have := jfuel_pos v; omega
    · have := jfuelElems_pos xs; omega
    · have := jfuelMembers_pos fs; omega
  | succ fuel ih =>
    obtain ⟨ihV, ihE, ihM⟩ := ih
    refine ⟨?_, ?_, ?_⟩
    · intro v rest hf hnd
      cases v with
      | null =>
        show readVal (fuel + 1) (['n', 'u', 'l', 'l'] ++ rest) = _
        simp [readVal, dropLit]
      | bool b =>
        cases b with
        | false =>
          show readVal (fuel + 1) (['f', 'a', 'l', 's', 'e'] ++ rest) = _
          simp [readVal, dropLit]
        | true =>
          show readVal (fuel + 1) (['t', 'r', 'u', 'e'] ++ rest) = _
          simp [readVal, dropLit]
      | str s =>
        have hinput : serializePlain (.str s) ++ rest =
            '"' :: (escapeStr s.data ++ '"' :: rest) := by
          simp [serializePlain]
        rw [hinput, readVal, if_pos rfl, readStrChars_escape]
      | num n =>
        cases n with
        | ofNat m =>
          obtain ⟨c, cs, hcs⟩ := List.exists_cons_of_ne_nil (natChars_ne_nil m)
          have hdig : ∀ x ∈ natChars m, x.isDigit = true := natChars_digits m
          have hcd : c.isDigit = true := hdig c (hcs ▸ List.mem_cons_self _ _)
          obtain ⟨hne1, hne2, hne3, hne4, hne5, hne6, hne7, hne8⟩ := isDigit_ne hcd
          have hinput : serializePlain (.num (Int.ofNat m)) ++ rest = c :: (cs ++ rest) := by
            simp [serializePlain, intChars, hcs]
          rw [hinput, readVal, if_neg hne2, if_neg hne3, if_neg hne4, if_neg hne5,
            if_pos hcd]
          have ht : takeDigits (c :: (cs ++ rest)) = (c :: cs, rest) := by
            have he : c :: (cs ++ rest) = (c :: cs) ++ rest := rfl
            rw [he, ← hcs]
            exact takeDigits_append hdig hnd
          simp only [ht, ← hcs, digitsToNat_natChars]
          rfl
        | negSucc m =>
          have hinput : serializePlain (.num (Int.negSucc m)) ++ rest =
              '-' :: (natChars (m + 1) ++ rest) := by
            simp [serializePlain, intChars]
          rw [hinput, readVal, if_neg (by decide), if_neg (by decide), if_neg (by decide),
            if_pos rfl]
          have ht : takeDigits (natChars (m + 1) ++ rest) = (natChars (m + 1), rest) :=
            takeDigits_append (natChars_digits _) hnd
          simp only [ht, natChars_ne_nil, if_false, digitsToNat_natChars]
          simp [Int.negSucc_eq]
      | arr xs =>
        have hinput : serializePlain (.arr xs) ++ rest =
            '[' :: (serElems xs ++ ']' :: rest) := by
          simp [serializePlain]
        rw [hinput, readVal, if_neg (by decide), if_pos rfl]
        rw [ihE xs rest (by rw [jfuel] at hf; omega)]
      | obj fs =>
        have hinput : serializePlain (.obj fs) ++ rest =
            '{' :: (serMembers fs ++ '}' :: rest) := by
          simp [serializePlain]
        rw [hinput, readVal, if_neg (by decide), if_neg (by decide), if_pos rfl]
        rw [ihM fs rest (by rw [jfuel] at hf; omega)]
    · intro xs rest hf
      cases xs with
      | nil =>
        show readElems (fuel + 1) (']' :: rest) = _
        rw [readElems, if_pos rfl]
      | cons x xs =>
        obtain ⟨c, cs, hcs, hcne⟩ := ser_head x
        cases xs with
        | nil =>
          have hinput : serElems [x] ++ ']' :: rest = c :: (cs ++ ']' :: rest) := by
            simp [serElems, hcs]
          rw [hinput, readElems, if_neg hcne]
          have he : c :: (cs ++ ']' :: rest) = serializePlain x ++ ']' :: rest := by
            rw [hcs]; rfl
          rw [he, ihV x (']' :: rest) (by rw [jfuelElems, jfuelElems] at hf; omega)
            (by simp [noLeadDigit])]
          simp
        | cons y ys =>
          have hinput : serElems (x :: y :: ys) ++ ']' :: rest =
              c :: (cs ++ (',' :: (serElems (y :: ys) ++ ']' :: rest))) := by
            simp [serElems, hcs]
          rw [hinput, readElems, if_neg hcne]
          have he : c :: (cs ++ ',' :: (serElems (y :: ys) ++ ']' :: rest)) =
              serializePlain x ++ ',' :: (serElems (y :: ys) ++ ']' :: rest) := by
            rw [hcs]; rfl
          rw [he, ihV x (',' :: (serElems (y :: ys) ++ ']' :: rest))
            (by rw [jfuelElems] at hf; omega) (by simp [noLeadDigit])]
          have hmore := ihE (y :: ys) rest (by rw [jfuelElems] at hf; omega)
          simp [hmore]
    · intro fs rest hf
      cases fs with
      | nil =>
        show readMembers (fuel + 1) ('}' :: rest) = _
        rw [readMembers, if_pos rfl]
      | cons kv fs =>
        obtain ⟨k, v⟩ := kv
        cases fs with
        | nil =>
          have hinput : serMembers [(k, v)] ++ '}' :: rest =
              '"' :: (escapeStr k.data ++ '"' :: (':' :: (serializePlain v ++ '}' :: rest))) := by
            simp [serMembers, serMember]
          rw [hinput, readMembers, if_neg (by decide), if_pos rfl, readStrChars_escape]
          have hv := ihV v ('}' :: rest) (by rw [jfuelMembers, jfuelMembers] at hf; omega)
            (by simp [noLeadDigit])
          simp [hv]
        | cons kv2 fs2 =>
          have hinput : serMembers ((k, v) :: kv2 :: fs2) ++ '}' :: rest =
              '"' :: (escapeStr k.data ++ '"' ::
                (':' :: (serializePlain v ++
                  ',' :: (serMembers (kv2 :: fs2) ++ '}' :: rest)))) := by
            simp [serMembers, serMember]
          rw [hinput, readMembers, if_neg (by decide), if_pos rfl, readStrChars_escape]
          have hv := ihV v (',' :: (serMembers (kv2 :: fs2) ++ '}' :: rest))
            (by rw [jfuelMembers] at hf; omega) (by simp [noLeadDigit])
          have hm := ihM (kv2 :: fs2) rest (by rw [jfuelMembers] at hf; omega)
          simp [hv, hm]

/-- The plain serializer is injective. -/
theorem serializePlain_inj {a b : JsonValue}
    (h : serializePlain a = serializePlain b) : a = b := by
  have ha := (read_roundtrip (jfuel a + jfuel b)).1 a [] (by omega) rfl
  have hb := (read_roundtrip (jfuel a + jfuel b)).1 b [] (by omega) rfl
  rw [List.append_nil] at ha hb
  rw [h, hb] at ha
  exact (congrArg Prod.fst (Option.some.inj ha)).symm

/-- A permutation between mapped lists lifts to a reordering of the second
list whose image matches the first pointwise. -/
theorem map_perm_lift {α β : Type} (f : α → β) :
    ∀ (l1 l2 : List α), (l1.map f).Perm (l2.map f) →
      ∃ l3 : List α, l3.Perm l2 ∧ l3.map f = l1.map f := by
  intro l1
  induction l1 with
  | nil =>
    intro l2 h
    refine ⟨l2, List.Perm.refl l2, ?_⟩
    rw [List.map_nil]
    exact h.symm.eq_nil
  | cons a t ih =>
    intro l2 h
    have hmem : f a ∈ l2.map f := h.subset (List.mem_cons_self _ _)
    rcases List.mem_map.mp hmem with ⟨b, hb, hfb⟩
    obtain ⟨u, w, hl2⟩ := List.append_of_mem hb
    subst hl2
    have hsplit : (u ++ b :: w).map f = u.map f ++ f b :: w.map f := by simp
    rw [hsplit] at h
    have h2 : (f a :: t.map f).Perm (f b :: (u.map f ++ w.map f)) := by
      have := h.trans (List.perm_middle)
      exact this
    rw [hfb] at h2
    have h3 : (t.map f).Perm ((u ++ w).map f) := by
      have := h2.cons_inv
      rw [← List.map_append] at this
      exact this
    obtain ⟨l3, hp3, hm3⟩ := ih (u ++ w) h3
    refine ⟨b :: l3, ?_, ?_⟩
    · exact (hp3.cons b).trans List.perm_middle.symm
    · simp [hm3, hfb]

theorem jsize_pos (a : JsonValue) : 1 ≤ sizeOf a := by
  cases a <;> simp_arith

/-- Values with the same canonical form (and duplicate-free object keys) are
structurally equal up to object-key insertion order. -/
theorem canon_eq_permEq :
    ∀ (n : Nat) (a b : JsonValue), sizeOf a ≤ n → wellFormed a = true →
      wellFormed b = true → canon a = canon b → PermEq a b := by
  intro n
  induction n with
  | zero =>
    intro a b hs _ _ _
    exact absurd hs (by have := jsize_pos a; omega)
  | succ n ihn =>
    intro a b hs hwa hwb hc
    cases a with
    | null =>
      cases b with
      | null => exact .null
      | bool _ => exact absurd hc (by simp [canon])
      | num _ => exact absurd hc (by simp [canon])
      | str _ => exact absurd hc (by simp [canon])
      | arr _ => exact absurd hc (by simp [canon])
      | obj _ => exact absurd hc (by simp [canon])
    | bool b1 =>
      cases b with
      | bool b2 =>
        simp only [canon, JsonValue.bool.injEq] at hc
        exact hc ▸ .bool b1
      | null => exact absurd hc (by simp [canon])
      | num _ => exact absurd hc (by simp [canon])
      | str _ => exact absurd hc (by simp [canon])
      | arr _ => exact absurd hc (by simp [canon])
      | obj _ => exact absurd hc (by simp [canon])
    | num n1 =>
      cases b with
      | num n2 =>
        simp only [canon, JsonValue.num.injEq] at hc
        exact hc ▸ .num n1
      | null => exact absurd hc (by simp [canon])
      | bool _ => exact absurd hc (by simp [canon])
      | str _ => exact absurd hc (by simp [canon])
      | arr _ => exact absurd hc (by simp [canon])
      | obj _ => exact absurd hc (by simp [canon])
    | str s1 =>
      cases b with
      | str s2 =>
        simp only [canon, JsonValue.str.injEq] at hc
        exact hc ▸ .str s1
      | null => exact absurd hc (by simp [canon])
      | bool _ => exact absurd hc (by simp [canon])
      | num _ => exact absurd hc (by simp [canon])
      | arr _ => exact absurd hc (by simp [canon])
      | obj _ => exact absurd hc (by simp [canon])
    | arr xs =>
      cases b with
      | null => exact absurd hc (by simp [canon])
      | bool _ => exact absurd hc (by simp [canon])
      | num _ => exact absurd hc (by simp [canon])
      | str _ => exact absurd hc (by simp [canon])
      | obj _ => exact absurd hc (by simp [canon])
      | arr ys =>
        simp only [canon, JsonValue.arr.injEq] at hc
        rw [canonList_eq_map, canonList_eq_map] at hc
        have hlen : xs.length = ys.length := by
          have := congrArg List.length hc
          simpa using this
        refine .arr hlen ?_
        intro i h1 h2
        have hpt : canon (xs.get ⟨i, h1⟩) = canon (ys.get ⟨i, h2⟩) := by
          have hi1 : i < (xs.map canon).length := by simpa using h1
          have hi2 : i < (ys.map canon).length := by simpa using h2
          have := List.get_of_eq hc ⟨i, hi1⟩
          simp only [List.get_eq_getElem, List.getElem_map] at this
          simpa [List.get_eq_getElem] using this
        have hmem1 : xs.get ⟨i, h1⟩ ∈ xs := xs.get_mem i h1
        have hmem2 : ys.get ⟨i, h2⟩ ∈ ys := ys.get_mem i h2
        apply ihn (xs.get ⟨i, h1⟩) (ys.get ⟨i, h2⟩) ?_ ?_ ?_ hpt
        · have hlt : sizeOf (xs.get ⟨i, h1⟩) < sizeOf xs := List.sizeOf_lt_of_mem hmem1
          have harr : sizeOf (JsonValue.arr xs) = 1 + sizeOf xs := by simp_arith
          omega
        · rw [wellFormed] at hwa
          exact wfList_mem hwa hmem1
        · rw [wellFormed] at hwb
          exact wfList_mem hwb hmem2
    | obj fs =>
      cases b with
      | null => exact absurd hc (by simp [canon])
      | bool _ => exact absurd hc (by simp [canon])
      | num _ => exact absurd hc (by simp [canon])
      | str _ => exact absurd hc (by simp [canon])
      | arr _ => exact absurd hc (by simp [canon])
      | obj gs =>
        simp only [canon, JsonValue.obj.injEq] at hc
        have hperm : ((canonFields fs)).Perm (canonFields gs) := by
          have h1 := (sortPairs_perm (canonFields fs)).symm
          rw [hc] at h1
          exact h1.trans (sortPairs_perm _)
        rw [canonFields_eq_map, canonFields_eq_map] at hperm
        obtain ⟨gs0, hgs0p, hgs0m⟩ := map_perm_lift (fun p => (p.1, canon p.2)) fs gs hperm
        have hlen0 : fs.length = gs0.length := by
          have := congrArg List.length hgs0m
          simp at this
          omega
        have hpt : ∀ (i : Nat) (h1 : i < fs.length) (h2 : i < gs0.length),
            (fs.get ⟨i, h1⟩).1 = (gs0.get ⟨i, h2⟩).1 ∧
            canon (fs.get ⟨i, h1⟩).2 = canon (gs0.get ⟨i, h2⟩).2 := by
          intro i h1 h2
          have hi1 : i < (gs0.map (fun p => (p.1, canon p.2))).length := by simpa using h2
          have := List.get_of_eq hgs0m ⟨i, hi1⟩
          simp only [List.get_eq_getElem, List.getElem_map] at this
          have hcomp := Prod.mk.injEq _ _ _ _ ▸ this
          constructor
          · have := congrArg Prod.fst this
            simpa [List.get_eq_getElem] using this.symm
          · have := congrArg Prod.snd this
            simpa [List.get_eq_getElem] using this.symm
        refine .obj hlen0 (fun i h1 h2 => (hpt i h1 h2).1) ?_ hgs0p
        intro i h1 h2
        have hmem1 : fs.get ⟨i, h1⟩ ∈ fs := fs.get_mem i h1
        have hmem2 : gs0.get ⟨i, h2⟩ ∈ gs := hgs0p.subset (gs0.get_mem i h2)
        apply ihn (fs.get ⟨i, h1⟩).2 (gs0.get ⟨i, h2⟩).2 ?_ ?_ ?_ (hpt i h1 h2).2
        · have hlt : sizeOf (fs.get ⟨i, h1⟩) < sizeOf fs := List.sizeOf_lt_of_mem hmem1
          have hobj : sizeOf (JsonValue.obj fs) = 1 + sizeOf fs := by simp_arith
          have hpair : sizeOf (fs.get ⟨i, h1⟩).2 < sizeOf (fs.get ⟨i, h1⟩) := by
            obtain ⟨k, v⟩ := fs.get ⟨i, h1⟩
            simp_arith
          omega
        · rw [wellFormed, Bool.and_eq_true] at hwa
          exact wfFields_mem hwa.2 hmem1
        · rw [wellFormed, Bool.and_eq_true] at hwb
          exact wfFields_mem hwb.2 hmem2

/-! ### Claim C6: the default key generator is canonical and injective -/

/-- C6: under the default key generator (no custom generator configured), the
derived key is the identifier, the separator, and the canonical serialization
of the argument list; two argument lists that are structurally equal up to
object-key insertion order derive the same key; and argument lists that are
not (differing in position or value) derive different keys — key equality
implies structural equality up to insertion order.  Argument lists must be
well formed (JavaScript objects cannot carry duplicate keys). -/
theorem defaultKey_canonical (cfg : RecoalConfig) (f : String)
    (args1 args2 : List JsonValue)
    (hgen : cfg.customKeyGen = none)
    (w1 : wellFormed (.arr args1) = true) (w2 : wellFormed (.arr args2) = true) :
    createKey cfg f args1 = f ++ "|" ++ stringify (.arr args1) ∧
    (PermEq (.arr args1) (.arr args2) →
      createKey cfg f args1 = createKey cfg f args2) ∧
    (createKey cfg f args1 = createKey cfg f args2 →
      PermEq (.arr args1) (.arr args2)) := by
  refine ⟨by simp [createKey, hgen], ?_, ?_⟩
  · intro hp
    simp only [createKey, hgen]
    rw [stringify, stringify, permEq_canon hp w1]
  · intro hk
    simp only [createKey, hgen] at hk
    have hdata : (f ++ "|").data ++ (stringify (.arr args1)).data =
        (f ++ "|").data ++ (stringify (.arr args2)).data := by
      have := congrArg String.data hk
      simpa [String.data_append] using this
    have hser : serializePlain (canon (.arr args1)) =
        serializePlain (canon (.arr args2)) := List.append_cancel_left hdata
    exact canon_eq_permEq (sizeOf (JsonValue.arr args1)) _ _ le_rfl w1 w2
      (serializePlain_inj hser)

/-- The two example argument lists of the spec are structurally equal up to
object-key insertion order. -/
theorem argA_permEq_argB : PermEq (.arr argA) (.arr argB) := by
  refine .arr rfl ?_
  intro i h1 h2
  have hi : i = 0 := by
    simp [argA] at h1
    omega
  subst hi
  show PermEq (.obj [("a", .num 1), ("b", .num 2)]) (.obj [("b", .num 2), ("a", .num 1)])
  have hp : List.Perm [("a", JsonValue.num 1), ("b", JsonValue.num 2)]
      [("b", JsonValue.num 2), ("a", JsonValue.num 1)] := List.Perm.swap _ _ _
  refine PermEq.obj rfl ?_ ?_ hp
  · intro j hj1 hj2
    match j with
    | 0 => rfl
    | 1 => rfl
  · intro j hj1 hj2
    match j with
    | 0 => exact .num 1
    | 1 => exact .num 2

/-- Witness for C6 on the spec's own example `{a:1,b:2}` versus
`{b:2,a:1}`. -/
theorem defaultKey_canonical_witness :
    cfgDefault.customKeyGen = none ∧
    wellFormed (.arr argA) = true ∧
    wellFormed (.arr argB) = true ∧
    createKey cfgDefault "f" argA = "f" ++ "|" ++ stringify (.arr argA) ∧
    createKey cfgDefault "f" argA = createKey cfgDefault "f" argB := by
  have w1 : wellFormed (.arr argA) = true := by decide
  have w2 : wellFormed (.arr argB) = true := by decide
  have h := defaultKey_canonical cfgDefault "f" argA argB rfl w1 w2
  exact ⟨rfl, w1, w2, h.1, h.2.1 argA_permEq_argB⟩

end Recoal
